import Mathlib

/-!
Shallow embedding of `splittt` (src/src/main.rs): a CLI tool that splits a
paginated PDF document into chunks.  The embedding models the chunk-size
resolution (`main`, lines 50-59), the planning loop
`(0..num_pages).step_by(chunk_size)` with `end_page = min(start+chunk_size,
num_pages)` (lines 62-63), the per-chunk retain/delete set computation
(lines 70-74) and the clone/delete/save extraction on a document store
(lines 67-81).  Rust's `step_by` panics when the step is 0; this is modelled
as a distinct error value `stepByZeroPanic`.
-/

namespace Splittt

/-- The `SplitMode` enum of the CLI (`--mode`). -/
inductive SplitMode
  | NumChunks
  | PageSize
deriving DecidableEq, Repr

/-- Outcomes that abort the run before/at the planning loop:
`invalidDirective` models the `"Number of chunks cannot be zero."` error,
`stepByZeroPanic` models the panic of Rust's `Iterator::step_by` on step 0. -/
inductive RunError
  | invalidDirective
  | stepByZeroPanic
deriving DecidableEq, Repr

/-- Lines 50-59 of `main.rs`: resolve the mode and CLI arguments to the
effective `chunk_size`.  In `PageSize` mode the `--chunk-size` argument is
used as is; in `NumChunks` mode, `--num-chunks` (default 3) must be nonzero
and the chunk size is `(num_pages + num_chunks - 1) / num_chunks`. -/
def resolveChunkSize (numPages : Nat) (mode : SplitMode) (chunkSizeArg : Nat)
    (numChunksArg : Option Nat) : Except RunError Nat :=
  match mode with
  | .PageSize => .ok chunkSizeArg
  | .NumChunks =>
    let numChunks := numChunksArg.getD 3
    if numChunks == 0 then .error .invalidDirective
    else .ok ((numPages + numChunks - 1) / numChunks)

/-- The planning loop of lines 62-63: starts `start = 0, chunkSize,
2*chunkSize, ...` while `start < numPages` (Rust's
`(0..num_pages).step_by(chunk_size)`), each iteration emitting the 1-based
inclusive page range `(start+1, min (start+chunkSize) numPages)` — i.e.
`(start_page + 1, end_page)` as printed on line 83 and retained by
`pages_to_keep` on line 70.  Defined only for `chunkSize > 0` (otherwise the
Rust code panics before any iteration). -/
def planFrom (numPages chunkSize start : Nat) : List (Nat × Nat) :=
  if _h : 0 < chunkSize ∧ start < numPages then
    (start + 1, min (start + chunkSize) numPages) :: planFrom numPages chunkSize (start + chunkSize)
  else []
termination_by numPages - start
decreasing_by omega

/-- The planner: resolve the chunk size, then run the stepping loop.
`step_by(0)` asserts (panics) even over an empty range, so a resolved chunk
size of 0 is the panic outcome no matter the page count. -/
def plan (numPages : Nat) (mode : SplitMode) (chunkSizeArg : Nat)
    (numChunksArg : Option Nat) : Except RunError (List (Nat × Nat)) :=
  match resolveChunkSize numPages mode chunkSizeArg numChunksArg with
  | .error e => .error e
  | .ok chunkSize =>
    if chunkSize == 0 then .error .stepByZeroPanic
    else .ok (planFrom numPages chunkSize 0)

/-- The 1-based pages retained by an inclusive range `(start, end)`. -/
def rangePages (r : Nat × Nat) : List Nat :=
  List.range' r.1 (r.2 + 1 - r.1)

/-- Number of pages in an inclusive range `(start, end)`. -/
def rangeLen (r : Nat × Nat) : Nat := r.2 + 1 - r.1

/-- Line 70: `pages_to_keep = (start_page as u32 + 1 ..= end_page as u32)`,
with `startPage` the 0-based loop start and `endPage` inclusive 1-based. -/
def pagesToKeep (startPage endPage : Nat) : List Nat :=
  List.range' (startPage + 1) (endPage - startPage)

/-- Line 71: `all_pages = (1 ..= num_pages)`. -/
def allPages (numPages : Nat) : List Nat :=
  List.range' 1 numPages

/-- Line 74: `pages_to_delete = all_pages.filter(|p| !pages_to_keep.contains(p))`. -/
def pagesToDelete (numPages startPage endPage : Nat) : List Nat :=
  (allPages numPages).filter (fun p => !((pagesToKeep startPage endPage).contains p))

/-- A document is its list of pages (page content abstracted to `α`). -/
structure Document (α : Type) where
  pages : List α
deriving DecidableEq, Repr

/-- `lopdf`'s `Document::clone`: an independent copy with the same pages. -/
def Document.clone {α : Type} (d : Document α) : Document α := d

/-- `lopdf`'s `delete_pages`: remove the pages whose 1-based page number is
in `nums`, keeping the rest in order. -/
def Document.delete_pages {α : Type} (d : Document α) (nums : List Nat) : Document α :=
  ⟨(d.pages.enum.filter (fun ip => !(nums.contains (ip.1 + 1)))).map Prod.snd⟩

/-- Lines 67-78 for one planned range `r` (1-based inclusive): clone the
source, compute the deletion set from the range, delete those pages. -/
def extractChunk {α : Type} (doc : Document α) (numPages : Nat) (r : Nat × Nat) :
    Document α :=
  (doc.clone).delete_pages (pagesToDelete numPages (r.1 - 1) r.2)

/-- The whole run on a loaded document: plan, then extract one chunk per
range.  An error from planning aborts before any chunk is produced. -/
def runSplit {α : Type} (doc : Document α) (mode : SplitMode) (chunkSizeArg : Nat)
    (numChunksArg : Option Nat) : Except RunError (List (Document α)) :=
  (plan doc.pages.length mode chunkSizeArg numChunksArg).map
    (fun rs => rs.map (fun r => extractChunk doc doc.pages.length r))

/-! ### Document store semantics for the extraction loop

To make the in-place mutation of `chunk_doc` (and the absence of mutation of
`doc`) visible, the loop body is also modelled on an explicit store of live
documents: `doc.clone()` appends a copy of the source entry,
`chunk_doc.delete_pages(..)` mutates the fresh entry in place. -/

/-- `let mut chunk_doc = doc.clone();`: append a copy of entry `src` to the
store; the new entry lives at index `docs.length`. -/
def cloneInto {α : Type} (docs : List (Document α)) (src : Nat) : List (Document α) :=
  docs ++ [docs.getD src ⟨[]⟩]

/-- One iteration of the loop of lines 62-84 on the store: clone the source
entry, then mutate the clone in place by deleting the range's complement. -/
def stepChunk {α : Type} (numPages src : Nat) (docs : List (Document α))
    (r : Nat × Nat) : List (Document α) :=
  let docs1 := cloneInto docs src
  docs1.set docs.length
    ((docs1.getD docs.length ⟨[]⟩).delete_pages (pagesToDelete numPages (r.1 - 1) r.2))

/-- The full extraction loop over the planned ranges, threading the store. -/
def runChunksStore {α : Type} (numPages src : Nat) (docs : List (Document α))
    (ranges : List (Nat × Nat)) : List (Document α) :=
  ranges.foldl (stepChunk numPages src) docs

/-! ### Unfolding and closed form of the planning loop -/

/-- The loop emits nothing once `start ≥ numPages` (or for step 0, where the
Rust code would already have panicked). -/
theorem planFrom_stop {P cs s : Nat} (h : ¬(0 < cs ∧ s < P)) : planFrom P cs s = [] := by
  rw [planFrom]
  exact dif_neg h

/-- One iteration of the loop: emit `(s+1, min (s+cs) P)` and advance by `cs`. -/
theorem planFrom_step {P cs s : Nat} (hcs : 0 < cs) (hs : s < P) :
    planFrom P cs s = (s + 1, min (s + cs) P) :: planFrom P cs (s + cs) := by
  rw [planFrom]
  exact dif_pos ⟨hcs, hs⟩

/-- Shifting both the page count and the start by `cs` shifts every emitted
range by `cs`. -/
theorem planFrom_shift (cs P : Nat) :
    ∀ s, planFrom (P + cs) cs (s + cs)
      = (planFrom P cs s).map (fun r => (r.1 + cs, r.2 + cs)) := by
  rcases Nat.eq_zero_or_pos cs with hcs | hcs
  · intro s
    subst hcs
    rw [planFrom_stop (by omega), planFrom_stop (by omega)]
    rfl
  · suffices h : ∀ d s, P - s = d → planFrom (P + cs) cs (s + cs)
        = (planFrom P cs s).map (fun r => (r.1 + cs, r.2 + cs)) by
      intro s
      exact h (P - s) s rfl
    intro d
    induction d using Nat.strong_induction_on with
    | _ d ih =>
      intro s hd
      by_cases hs : s < P
      · rw [planFrom_step hcs (by omega : s + cs < P + cs), planFrom_step hcs hs]
        simp only [List.map_cons]
        refine congrArg₂ List.cons ?_ ?_
        · simp only [Prod.mk.injEq]
          constructor
          · omega
          · omega
        · have h2 : s + cs + cs = (s + cs) + cs := rfl
          rw [h2]
          exact ih (P - (s + cs)) (by omega) (s + cs) rfl
      · rw [planFrom_stop (by omega), planFrom_stop (by omega)]
        rfl

/-- The recurrence behind the loop: the first range is `(1, min cs P)` and
the rest is the plan for the remaining `P - cs` pages shifted by `cs`. -/
theorem planFrom_succ (P cs : Nat) (hcs : 0 < cs) (hP : 0 < P) :
    planFrom P cs 0
      = (1, min cs P) :: (planFrom (P - cs) cs 0).map (fun r => (r.1 + cs, r.2 + cs)) := by
  rw [planFrom_step hcs hP]
  refine congrArg₂ List.cons ?_ ?_
  · simp
  · rcases le_or_lt cs P with h | h
    · have h1 : (P - cs) + cs = P := by omega
      have h2 := planFrom_shift cs (P - cs) 0
      rw [h1] at h2
      exact h2
    · rw [planFrom_stop (by omega), planFrom_stop (by omega)]
      rfl

/-- The number of emitted chunks satisfies the ceiling-division recurrence. -/
theorem chunks_succ (P cs : Nat) (hcs : 0 < cs) (hP : 0 < P) :
    (P + cs - 1) / cs = ((P - cs) + cs - 1) / cs + 1 := by
  rcases le_or_lt cs P with h | h
  · have h2 : P + cs - 1 = ((P - cs) + cs - 1) + cs := by omega
    rw [h2, Nat.add_div_right _ hcs]
  · have h1 : P - cs = 0 := by omega
    rw [h1]
    have h2 : (0 + cs - 1) / cs = 0 := Nat.div_eq_of_lt (by omega)
    rw [h2]
    exact Nat.div_eq_of_lt_le (by omega) (by omega)

/-- The `i`-th emitted range (0-based), in closed form. -/
def chunkAt (cs P i : Nat) : Nat × Nat := (i * cs + 1, min ((i + 1) * cs) P)

/-- Closed form of the planning loop: `(P + cs - 1) / cs` ranges, the `i`-th
being `(i*cs + 1, min ((i+1)*cs) P)`. -/
theorem planFrom_closed (cs : Nat) (hcs : 0 < cs) :
    ∀ P, planFrom P cs 0 = (List.range ((P + cs - 1) / cs)).map (chunkAt cs P) := by
  intro P
  induction P using Nat.strong_induction_on with
  | _ P ih =>
    rcases Nat.eq_zero_or_pos P with hP | hP
    · subst hP
      rw [planFrom_stop (by omega)]
      have h0 : (0 + cs - 1) / cs = 0 := Nat.div_eq_of_lt (by omega)
      rw [h0]
      rfl
    · rw [planFrom_succ P cs hcs hP, chunks_succ P cs hcs hP,
        List.range_succ_eq_map, List.map_cons, ih (P - cs) (by omega),
        List.map_map, List.map_map]
      refine congrArg₂ List.cons ?_ ?_
      · simp [chunkAt]
      · refine List.map_congr_left ?_
        intro i hi
        rw [List.mem_range] at hi
        rcases le_or_lt cs P with hle | hlt
        · simp only [Function.comp_apply, chunkAt, Nat.succ_eq_add_one, Prod.mk.injEq]
          constructor
          · ring
          · have hB : (i + 1 + 1) * cs = (i + 1) * cs + cs := by ring
            rw [hB]
            revert hle
            generalize (i + 1) * cs = A
            intro hle
            omega
        · exfalso
          have h1 : P - cs = 0 := by omega
          rw [h1] at hi
          have h2 : (0 + cs - 1) / cs = 0 := Nat.div_eq_of_lt (by omega)
          rw [h2] at hi
          omega

/-- The loop emits exactly `(P + cs - 1) / cs` ranges. -/
theorem planFrom_length (P cs : Nat) (hcs : 0 < cs) :
    (planFrom P cs 0).length = (P + cs - 1) / cs := by
  rw [planFrom_closed cs hcs P, List.length_map, List.length_range]

/-! ### Arithmetic bounds on the chunk count -/

/-- `P` pages fit into `ceil(P/cs)` chunks of size `cs`. -/
theorem le_chunks_mul (P cs : Nat) (hcs : 0 < cs) : P ≤ ((P + cs - 1) / cs) * cs := by
  have h : P + cs - 1 < ((P + cs - 1) / cs + 1) * cs :=
    (Nat.div_lt_iff_lt_mul hcs).mp (Nat.lt_succ_self _)
  have h2 : ((P + cs - 1) / cs + 1) * cs = ((P + cs - 1) / cs) * cs + cs := by ring
  rw [h2] at h
  revert h
  generalize ((P + cs - 1) / cs) * cs = A
  intro h
  omega

/-- All chunks but possibly the last are needed: the last chunk's 0-based
start `(ceil(P/cs) - 1) * cs` lies strictly inside the document. -/
theorem chunks_mul_lt (P cs : Nat) (hcs : 0 < cs) (hP : 0 < P) :
    (((P + cs - 1) / cs) - 1) * cs < P := by
  have h1 : ((P + cs - 1) / cs) * cs ≤ P + cs - 1 := Nat.div_mul_le_self _ _
  have h2 : 1 ≤ (P + cs - 1) / cs := (Nat.le_div_iff_mul_le hcs).mpr (by omega)
  have h3 : (((P + cs - 1) / cs) - 1) * cs = ((P + cs - 1) / cs) * cs - cs := by
    rw [Nat.sub_mul, Nat.one_mul]
  rw [h3]
  revert h1 h2
  generalize hq : (P + cs - 1) / cs = q
  generalize q * cs = A
  intro h1 h2
  omega

/-- Any non-last stride start lies strictly inside the document. -/
theorem start_mul_lt (k cs P i : Nat) (h : (k - 1) * cs < P) (hi : i < k) : i * cs < P :=
  lt_of_le_of_lt (Nat.mul_le_mul_right cs (by omega : i ≤ k - 1)) h

/-- Ceiling division is at most `k` as soon as `P` fits in `k` chunks. -/
theorem ceil_le_of_le_mul (P c k : Nat) (hc : 0 < c) (h : P ≤ c * k) :
    (P + c - 1) / c ≤ k := by
  rw [Nat.div_le_iff_le_mul_add_pred hc]
  revert h
  generalize c * k = A
  intro h
  omega

/-- Membership in a step-1 `List.range'`. -/
theorem mem_range_one {s n m : Nat} : m ∈ List.range' s n ↔ s ≤ m ∧ m < s + n := by
  rw [List.mem_range']
  constructor
  · rintro ⟨i, hi, rfl⟩
    omega
  · intro h
    exact ⟨m - s, by omega, by omega⟩

/-- The pages retained by the emitted ranges, in emission order, are exactly
the pages `s+1 .. P` still to be processed. -/
theorem planFrom_flatten (P cs : Nat) (hcs : 0 < cs) :
    ∀ s, ((planFrom P cs s).map rangePages).flatten = List.range' (s + 1) (P - s) := by
  suffices h : ∀ d s, P - s = d →
      ((planFrom P cs s).map rangePages).flatten = List.range' (s + 1) (P - s) by
    intro s
    exact h (P - s) s rfl
  intro d
  induction d using Nat.strong_induction_on with
  | _ d ih =>
    intro s hd
    by_cases hs : s < P
    · rw [planFrom_step hcs hs, List.map_cons, List.flatten_cons,
        ih (P - (s + cs)) (by omega) (s + cs) rfl]
      rcases le_or_lt (s + cs) P with h1 | h1
      · have hmin : min (s + cs) P = s + cs := by omega
        rw [hmin]
        have hr : rangePages (s + 1, s + cs) = List.range' (s + 1) cs := by
          simp only [rangePages]
          congr 1
          omega
        rw [hr]
        have happ := List.range'_append_1 (s + 1) cs (P - (s + cs))
        have he : s + 1 + cs = s + cs + 1 := by omega
        rw [he] at happ
        rw [happ]
        congr 1
        omega
      · have hmin : min (s + cs) P = P := by omega
        rw [hmin]
        have h2 : P - (s + cs) = 0 := by omega
        rw [h2]
        simp only [List.range'_zero, List.append_nil, rangePages]
        congr 1
        omega
    · rw [planFrom_stop (by omega)]
      have h2 : P - s = 0 := by omega
      rw [h2]
      simp

/-- In `PageSize` mode a positive `--chunk-size` argument is used directly. -/
theorem plan_pageSize (P n : Nat) (k : Option Nat) (hn : 0 < n) :
    plan P .PageSize n k = .ok (planFrom P n 0) := by
  have hn' : (n == 0) = false := beq_eq_false_iff_ne.mpr (by omega)
  simp [plan, resolveChunkSize, hn']

/-- In `NumChunks` mode with `k ≥ 1` and a positive resolved chunk size the
plan succeeds with chunk size `⌈P/k⌉`. -/
theorem plan_numChunks (P k c : Nat) (hk : 0 < k) (hcs : 0 < (P + k - 1) / k) :
    plan P .NumChunks c (some k) = .ok (planFrom P ((P + k - 1) / k) 0) := by
  have hk' : (k == 0) = false := beq_eq_false_iff_ne.mpr (by omega)
  have hcs' : ((P + k - 1) / k == 0) = false :=
    beq_eq_false_iff_ne.mpr (Nat.pos_iff_ne_zero.mp hcs)
  simp [plan, resolveChunkSize, hk', hcs']

/-- Claim C1: for `page_count ≥ 1` and effective `chunk_size ≥ 1`, the emitted
ranges `(s, min (s + chunk_size - 1) page_count)` are an exact partition of
`1..page_count`: their retained pages in order are exactly `1..page_count`,
consecutive ranges are contiguous, the ranges are pairwise non-overlapping in
increasing start order, and every range lies within `1..page_count`. -/
theorem plan_is_partition (P cs : Nat) (hP : 1 ≤ P) (hcs : 1 ≤ cs) :
    ((planFrom P cs 0).map rangePages).flatten = List.range' 1 P ∧
    List.Chain' (fun r r' => r'.1 = r.2 + 1) (planFrom P cs 0) ∧
    List.Pairwise (fun r r' => r.2 < r'.1) (planFrom P cs 0) ∧
    ∀ r ∈ planFrom P cs 0, 1 ≤ r.1 ∧ r.1 ≤ r.2 ∧ r.2 ≤ P := by
  obtain ⟨k, hk⟩ : ∃ k, k = (P + cs - 1) / cs := ⟨_, rfl⟩
  have hclosed : planFrom P cs 0 = (List.range k).map (chunkAt cs P) := by
    rw [planFrom_closed cs hcs P, ← hk]
  have hkl : (k - 1) * cs < P := by
    rw [hk]
    exact chunks_mul_lt P cs hcs hP
  refine ⟨?_, ?_, ?_, ?_⟩
  · have h := planFrom_flatten P cs hcs 0
    simpa using h
  · rw [hclosed, List.chain'_iff_get]
    intro i hi
    simp only [List.length_map, List.length_range] at hi
    simp only [List.get_eq_getElem, List.getElem_map, List.getElem_range]
    have h1 : (i + 1) * cs < P := start_mul_lt k cs P (i + 1) hkl (by omega)
    simp only [chunkAt]
    rw [min_eq_left (le_of_lt h1)]
  · rw [hclosed, List.pairwise_map]
    refine (List.pairwise_lt_range k).imp ?_
    intro a b hab
    simp only [chunkAt]
    calc min ((a + 1) * cs) P ≤ (a + 1) * cs := min_le_left _ _
      _ ≤ b * cs := Nat.mul_le_mul_right cs (by omega)
      _ < b * cs + 1 := Nat.lt_succ_self _
  · rw [hclosed]
    intro r hr
    rw [List.mem_map] at hr
    obtain ⟨i, hi, rfl⟩ := hr
    rw [List.mem_range] at hi
    have h1 : i * cs < P := start_mul_lt k cs P i hkl hi
    have h2 : i * cs + 1 ≤ (i + 1) * cs := by
      have h3 : (i + 1) * cs = i * cs + cs := by ring
      rw [h3]
      exact Nat.add_le_add_left hcs _
    exact ⟨Nat.le_add_left 1 _, le_min h2 h1, min_le_right _ _⟩

/-- Witness for C1 at `page_count = 10`, `chunk_size = 3`. -/
theorem plan_is_partition_witness :
    ((planFrom 10 3 0).map rangePages).flatten = List.range' 1 10 :=
  (plan_is_partition 10 3 (by decide) (by decide)).1

/-- Claim C2: `FixedSize(n)` over `P` pages produces exactly `⌈P/n⌉ =
(P + n - 1) / n` chunks; every chunk before the last has exactly `n` pages and
the last has `P - n * (chunks - 1)` pages. -/
theorem fixedSize_chunks (P n : Nat) (hP : 1 ≤ P) (hn : 1 ≤ n) :
    plan P .PageSize n none = .ok (planFrom P n 0) ∧
    (planFrom P n 0).length = (P + n - 1) / n ∧
    (∀ i r, (planFrom P n 0)[i]? = some r →
      i + 1 < (planFrom P n 0).length → rangeLen r = n) ∧
    (∀ i r, (planFrom P n 0)[i]? = some r →
      i + 1 = (planFrom P n 0).length →
      rangeLen r = P - n * ((planFrom P n 0).length - 1)) := by
  obtain ⟨k, hk⟩ : ∃ k, k = (P + n - 1) / n := ⟨_, rfl⟩
  have hclosed : planFrom P n 0 = (List.range k).map (chunkAt n P) := by
    rw [planFrom_closed n hn P, ← hk]
  have hlen : (planFrom P n 0).length = k := by
    rw [hclosed, List.length_map, List.length_range]
  have hkl : (k - 1) * n < P := by
    rw [hk]
    exact chunks_mul_lt P n hn hP
  have hkP : P ≤ k * n := by
    rw [hk]
    exact le_chunks_mul P n hn
  refine ⟨plan_pageSize P n none hn, by rw [hlen, hk], ?_, ?_⟩
  · intro i r hget hlt
    rw [hlen] at hlt
    rw [hclosed, List.getElem?_map, List.getElem?_range (by omega : i < k)] at hget
    simp only [Option.map_some'] at hget
    obtain rfl : chunkAt n P i = r := Option.some.inj hget
    have h1 : (i + 1) * n < P := start_mul_lt k n P (i + 1) hkl (by omega)
    simp only [rangeLen, chunkAt, min_eq_left (le_of_lt h1)]
    have h3 : (i + 1) * n = i * n + n := by ring
    rw [h3]
    revert hn
    generalize i * n = A
    intro hn
    omega
  · intro i r hget heq
    rw [hlen] at heq
    rw [hclosed, List.getElem?_map, List.getElem?_range (by omega : i < k)] at hget
    simp only [Option.map_some'] at hget
    obtain rfl : chunkAt n P i = r := Option.some.inj hget
    have hkP' : P ≤ (i + 1) * n := by
      rw [heq]
      exact hkP
    simp only [rangeLen, chunkAt, min_eq_right hkP', hlen]
    have h5 : k - 1 = i := by omega
    rw [h5, Nat.mul_comm n i]
    generalize i * n = A
    omega

/-- Witness for C2: `page_count = 10`, `FixedSize(3)` gives the four ranges
`(1,3), (4,6), (7,9), (10,10)`. -/
theorem fixedSize_chunks_witness :
    plan 10 .PageSize 3 none = .ok [(1, 3), (4, 6), (7, 9), (10, 10)] ∧
    (planFrom 10 3 0).length = (10 + 3 - 1) / 3 := by
  constructor
  · rw [(fixedSize_chunks 10 3 (by decide) (by decide)).1,
      planFrom_closed 3 (by decide) 10]
    rfl
  · exact (fixedSize_chunks 10 3 (by decide) (by decide)).2.1

/-- Claim C3: `ChunkCount(0)` (num-chunks mode with `num_chunks = 0`) fails
with `InvalidDirective` for every page count, and the run produces no chunk
output. -/
theorem chunkCountZero_invalid : ∀ (P c : Nat) (doc : Document Nat),
    plan P .NumChunks c (some 0) = .error .invalidDirective ∧
    runSplit doc .NumChunks c (some 0) = .error .invalidDirective := by
  intro P c doc
  exact ⟨rfl, rfl⟩

/-- Claim C4: `ChunkCount(k)` is resolved, before planning, to the single
effective chunk size `⌈P/k⌉ = (P + k - 1) / k`; the planner then emits exactly
`⌈P / ⌈P/k⌉⌉` ranges, and that count is at most `k`. -/
theorem chunkCount_resolution (P k c : Nat) (hP : 1 ≤ P) (hk : 1 ≤ k) :
    resolveChunkSize P .NumChunks c (some k) = .ok ((P + k - 1) / k) ∧
    plan P .NumChunks c (some k) = .ok (planFrom P ((P + k - 1) / k) 0) ∧
    (planFrom P ((P + k - 1) / k) 0).length
      = (P + ((P + k - 1) / k) - 1) / ((P + k - 1) / k) ∧
    (planFrom P ((P + k - 1) / k) 0).length ≤ k := by
  have hcs : 0 < (P + k - 1) / k := (Nat.le_div_iff_mul_le hk).mpr (by omega)
  refine ⟨?_, plan_numChunks P k c hk hcs, planFrom_length _ _ hcs, ?_⟩
  · have hk' : (k == 0) = false := beq_eq_false_iff_ne.mpr (by omega)
    simp [resolveChunkSize, hk']
  · rw [planFrom_length _ _ hcs]
    exact ceil_le_of_le_mul P _ k hcs (le_chunks_mul P k hk)

/-- Witness for C4: `page_count = 10`, `ChunkCount(3)` resolves to chunk size
`4` and yields the three ranges `(1,4), (5,8), (9,10)`. -/
theorem chunkCount_resolution_witness :
    plan 10 .NumChunks 10 (some 3) = .ok [(1, 4), (5, 8), (9, 10)] ∧
    (planFrom 10 ((10 + 3 - 1) / 3) 0).length ≤ 3 := by
  constructor
  · rw [(chunkCount_resolution 10 3 10 (by decide) (by decide)).2.1]
    have h4 : (10 + 3 - 1) / 3 = 4 := rfl
    rw [h4, planFrom_closed 4 (by decide) 10]
    rfl
  · exact (chunkCount_resolution 10 3 10 (by decide) (by decide)).2.2.2

/-- Claim C5: for a planned range `(s, e)` with `1 ≤ s ≤ e ≤ P`, the retained
pages are exactly the range's members, the deletion set is exactly the
complement of the range within `1..P`, and the two sets are disjoint with
union `1..P`. -/
theorem deletion_complement (P s e : Nat) (h1 : 1 ≤ s) (h2 : s ≤ e) (h3 : e ≤ P) :
    pagesToKeep (s - 1) e = rangePages (s, e) ∧
    (∀ p, p ∈ pagesToKeep (s - 1) e ↔ s ≤ p ∧ p ≤ e) ∧
    (∀ p, p ∈ pagesToDelete P (s - 1) e ↔ (1 ≤ p ∧ p ≤ P) ∧ ¬(s ≤ p ∧ p ≤ e)) ∧
    (∀ p, ¬(p ∈ pagesToKeep (s - 1) e ∧ p ∈ pagesToDelete P (s - 1) e)) ∧
    (∀ p, p ∈ allPages P ↔ p ∈ pagesToKeep (s - 1) e ∨ p ∈ pagesToDelete P (s - 1) e) := by
  have hkeep : ∀ p, p ∈ pagesToKeep (s - 1) e ↔ s ≤ p ∧ p ≤ e := by
    intro p
    simp only [pagesToKeep, mem_range_one]
    omega
  have hall : ∀ p, p ∈ allPages P ↔ 1 ≤ p ∧ p ≤ P := by
    intro p
    simp only [allPages, mem_range_one]
    omega
  have hdel : ∀ p, p ∈ pagesToDelete P (s - 1) e ↔ (1 ≤ p ∧ p ≤ P) ∧ ¬(s ≤ p ∧ p ≤ e) := by
    intro p
    simp only [pagesToDelete, List.mem_filter, Bool.not_eq_true',
      ← Bool.not_eq_true, List.contains_iff_exists_mem_beq]
    rw [hall p]
    constructor
    · rintro ⟨hp, hnc⟩
      refine ⟨hp, fun hse => hnc ⟨p, (hkeep p).mpr hse, by simp⟩⟩
    · rintro ⟨hp, hnse⟩
      refine ⟨hp, fun hc => ?_⟩
      obtain ⟨q, hq, hbeq⟩ := hc
      obtain rfl : p = q := by simpa using hbeq
      exact hnse ((hkeep p).mp hq)
  refine ⟨?_, hkeep, hdel, ?_, ?_⟩
  · simp only [pagesToKeep, rangePages]
    have e1 : s - 1 + 1 = s := by omega
    have e2 : e - (s - 1) = e + 1 - s := by omega
    rw [e1, e2]
  · intro p
    rw [hkeep p, hdel p]
    omega
  · intro p
    rw [hall p, hkeep p, hdel p]
    omega

/-- Witness for C5 at `P = 5`, range `(2, 3)`: deletion set `[1, 4, 5]`. -/
theorem deletion_complement_witness :
    pagesToDelete 5 (2 - 1) 3 = [1, 4, 5] ∧
    (∀ p, p ∈ pagesToKeep (2 - 1) 3 ↔ 2 ≤ p ∧ p ≤ 3) :=
  ⟨by decide, (deletion_complement 5 2 3 (by decide) (by decide) (by decide)).2.1⟩

/-- Claim C6: when the effective chunk size exceeds the page count
(`page_count ≥ 1`), the planner emits exactly one range covering the whole
document. -/
theorem oversize_single_chunk (P cs : Nat) (hP : 1 ≤ P) (h : P < cs) :
    planFrom P cs 0 = [(1, P)] ∧ plan P .PageSize cs none = .ok [(1, P)] := by
  have hcs : 0 < cs := by omega
  have h1 : planFrom P cs 0 = [(1, P)] := by
    rw [planFrom_step hcs (by omega), planFrom_stop (by omega)]
    simp only [Nat.zero_add]
    rw [min_eq_right (by omega)]
  exact ⟨h1, by rw [plan_pageSize P cs none hcs, h1]⟩

/-- Witness for C6: `page_count = 5`, `FixedSize(10)` gives the single range
`(1, 5)`. -/
theorem oversize_single_chunk_witness : plan 5 .PageSize 10 none = .ok [(1, 5)] :=
  (oversize_single_chunk 5 10 (by decide) (by decide)).2

/-- One loop iteration on the store only appends the extracted chunk: it is
the clone of the source entry with the range's complement deleted. -/
theorem stepChunk_eq {α : Type} (numPages src : Nat) (docs : List (Document α))
    (r : Nat × Nat) :
    stepChunk numPages src docs r
      = docs ++ [extractChunk (docs.getD src ⟨[]⟩) numPages r] := by
  simp only [stepChunk, cloneInto, extractChunk, Document.clone,
    List.getD_eq_getElem?_getD]
  rw [List.getElem?_concat_length]
  simp only [Option.getD_some]
  rw [List.set_append_right _ _ (Nat.le_refl _), Nat.sub_self]
  rfl

/-- Claim C7: extraction never mutates the shared source document.  Running
the whole extraction loop on a store of live documents leaves the source
entry untouched, and each chunk is an independent function of the original
source document and its own range alone (so no chunk's extraction can affect
another's). -/
theorem source_never_mutated {α : Type} (numPages src : Nat)
    (docs : List (Document α)) (ranges : List (Nat × Nat)) (h : src < docs.length) :
    runChunksStore numPages src docs ranges
      = docs ++ ranges.map (fun r => extractChunk (docs.getD src ⟨[]⟩) numPages r) ∧
    (runChunksStore numPages src docs ranges).getD src ⟨[]⟩ = docs.getD src ⟨[]⟩ := by
  have main : ∀ (rs : List (Nat × Nat)) (ds : List (Document α)), src < ds.length →
      runChunksStore numPages src ds rs
        = ds ++ rs.map (fun r => extractChunk (ds.getD src ⟨[]⟩) numPages r) := by
    intro rs
    induction rs with
    | nil =>
      intro ds hds
      simp [runChunksStore]
    | cons r rs ih =>
      intro ds hds
      have hstep : runChunksStore numPages src ds (r :: rs)
          = runChunksStore numPages src (stepChunk numPages src ds r) rs := rfl
      have hlen : src < (ds ++ [extractChunk (ds.getD src ⟨[]⟩) numPages r]).length := by
        rw [List.length_append]
        omega
      rw [hstep, stepChunk_eq, ih _ hlen]
      have hgd : (ds ++ [extractChunk (ds.getD src ⟨[]⟩) numPages r]).getD src ⟨[]⟩
          = ds.getD src ⟨[]⟩ := by
        rw [List.getD_eq_getElem?_getD, List.getD_eq_getElem?_getD,
          List.getElem?_append_left hds]
      rw [hgd, List.append_assoc]
      rfl
  refine ⟨main ranges docs h, ?_⟩
  rw [main ranges docs h, List.getD_eq_getElem?_getD, List.getElem?_append_left h,
    ← List.getD_eq_getElem?_getD]

/-- Witness for C7: a 3-page source split into ranges `(1,2)` and `(3,3)`;
the store afterwards holds the unchanged source plus the two chunks. -/
theorem source_never_mutated_witness :
    runChunksStore 3 0 [(⟨[10, 20, 30]⟩ : Document Nat)] [(1, 2), (3, 3)]
      = [⟨[10, 20, 30]⟩, ⟨[10, 20]⟩, ⟨[30]⟩] ∧
    (runChunksStore 3 0 [(⟨[10, 20, 30]⟩ : Document Nat)] [(1, 2), (3, 3)]).getD 0 ⟨[]⟩
      = ⟨[10, 20, 30]⟩ := by
  have h := source_never_mutated 3 0 [(⟨[10, 20, 30]⟩ : Document Nat)]
    [(1, 2), (3, 3)] (by decide)
  refine ⟨?_, ?_⟩
  · rw [h.1]
    rfl
  · rw [h.2]
    rfl

/-- Claim C8: planning is deterministic and stateless — two runs of the
planner on identical inputs return identical range sequences; the output is
a pure function of `(page_count, mode, chunk_size, num_chunks)`. -/
theorem plan_idempotent : ∀ (P : Nat) (m : SplitMode) (c : Nat) (k : Option Nat),
    plan P m c k = plan P m c k :=
  fun _ _ _ _ => rfl

/-- Claim C9: for a zero-page document in page-size mode with any chunk size
`n ≥ 1`, the run succeeds and emits zero chunks — the loop body never runs
and no error is raised. -/
theorem zero_pages_ok (n : Nat) (k : Option Nat) (hn : 1 ≤ n) :
    plan 0 .PageSize n k = .ok [] ∧
    runSplit (⟨[]⟩ : Document Nat) .PageSize n k = .ok [] := by
  have h1 : plan 0 .PageSize n k = .ok (planFrom 0 n 0) := plan_pageSize 0 n k hn
  have h2 : planFrom 0 n 0 = [] := planFrom_stop (by omega)
  rw [h2] at h1
  refine ⟨h1, ?_⟩
  simp only [runSplit, List.length_nil]
  rw [h1]
  rfl

/-- Witness for C9 at `chunk_size = 3`. -/
theorem zero_pages_ok_witness :
    plan 0 .PageSize 3 none = .ok [] ∧
    runSplit (⟨[]⟩ : Document Nat) .PageSize 3 none = .ok [] :=
  zero_pages_ok 3 none (by decide)

/-- Claim C10: the zero-chunk-size rejection is reachable only in num-chunks
mode.  Page-size mode never returns `InvalidDirective`; with `chunk_size = 0`
in page-size mode, and in num-chunks mode over a zero-page document (where
the resolved chunk size is `ceil(0/k) = 0`), execution reaches `step_by`
with step 0 — modelled as the `stepByZeroPanic` outcome — instead of
returning an error. -/
theorem stepByZero_gap :
    (∀ (P c : Nat) (k : Option Nat), plan P .PageSize c k ≠ .error .invalidDirective) ∧
    (∀ (P : Nat) (k : Option Nat), plan P .PageSize 0 k = .error .stepByZeroPanic) ∧
    (∀ (k c : Nat), 1 ≤ k →
      plan 0 .NumChunks c (some k) = .error .stepByZeroPanic) := by
  refine ⟨?_, ?_, ?_⟩
  · intro P c k h
    by_cases hc : c = 0
    · subst hc
      rw [show plan P .PageSize 0 k = .error .stepByZeroPanic from rfl] at h
      simp at h
    · rw [plan_pageSize P c k (by omega)] at h
      simp at h
  · intro P k
    rfl
  · intro k c hk
    have hk' : (k == 0) = false := beq_eq_false_iff_ne.mpr (by omega)
    have h0 : (k - 1) / k = 0 := Nat.div_eq_of_lt (by omega)
    simp [plan, resolveChunkSize, hk', h0]

/-- Witness for C10: `num_chunks = 3` over a zero-page document reaches the
`step_by`-with-step-0 panic. -/
theorem stepByZero_gap_witness :
    plan 0 .NumChunks 10 (some 3) = .error .stepByZeroPanic :=
  stepByZero_gap.2.2 3 10 (by decide)

end Splittt
